import Mathlib

/-!
Shallow embedding of the virtual-machine interpreter core
(`domain.rs`, `insn.rs`, `machine.rs`) as executable Lean definitions.

Machine integers are modelled as `Nat` with explicit `% 2^w` where the
source relies on fixed-width wraparound; fallible operations (Rust
panics: out-of-bounds indexing, failed asserts, `try_into().unwrap()`,
`todo!()`) are modelled as `Except Cond` results, with one constructor
of `Cond` per named error condition of the specification plus
`Unimplemented` for the source's `todo!()` arms.
-/

deriving instance DecidableEq for Except

namespace Virmin

/-- Error conditions.  Each corresponds to a panic site in the source. -/
inductive Cond where
  | InvalidWidth
  | FormatTooWide
  | ArityMismatch
  | OperandIndexOutOfRange
  | ImmediateOverflow
  | OutOfBounds
  | PcUnderflow
  | Unimplemented
deriving DecidableEq, Repr

/-- Source `machine.rs`: access widths. -/
inductive Width where
  | Byte
  | Word
  | DoubleWord
  | QuadWord
deriving DecidableEq, Repr

/-- Width in bytes: Byte=1, Word=2, DoubleWord=4, QuadWord=8. -/
def Width.size : Width → Nat
  | .Byte => 1
  | .Word => 2
  | .DoubleWord => 4
  | .QuadWord => 8

/-- Source `machine.rs`: concrete microcode (the source names this enum
`MicroCode` at its use sites in `insn.rs` and the tests). -/
inductive MicroCode where
  | Add (x y : Nat) (w : Width)
  | Copy (x y : Nat) (w : Width)
  | Goto (i : Nat)
  | Jump (i : Int)
  | Load (x : Nat) (i : Nat) (w : Width)
deriving DecidableEq, Repr

/-- Source `machine.rs`: a fixed-size array of bytes (`contents: &mut [u8]`).
Bytes are `Nat`s kept below 256 by every writer. -/
structure Memory where
  contents : List Nat
deriving DecidableEq, Repr

namespace Memory

/-- Slice indexing `self.contents[address]`; panics out of bounds. -/
def getByte (m : Memory) (address : Nat) : Except Cond Nat :=
  match m.contents[address]? with
  | some b => .ok b
  | none => .error .OutOfBounds

/-- Slice assignment `self.contents[address] = value`; panics out of bounds. -/
def setByte (m : Memory) (address value : Nat) : Except Cond Memory :=
  if address < m.contents.length then .ok ⟨m.contents.set address value⟩
  else .error .OutOfBounds

def read_u8 (m : Memory) (address : Nat) : Except Cond Nat :=
  m.getByte address

/-- Recompose with `u16::from_le_bytes([b0,b1])` = `b0 + 256*b1`. -/
def read_u16 (m : Memory) (address : Nat) : Except Cond Nat := do
  let b0 ← m.getByte address
  let b1 ← m.getByte (address+1)
  pure (b0 + 256 * b1)

def read_u32 (m : Memory) (address : Nat) : Except Cond Nat := do
  let b0 ← m.getByte address
  let b1 ← m.getByte (address+1)
  let b2 ← m.getByte (address+2)
  let b3 ← m.getByte (address+3)
  pure (b0 + 256 * b1 + 65536 * b2 + 16777216 * b3)

def read_u64 (m : Memory) (address : Nat) : Except Cond Nat := do
  let b0 ← m.getByte address
  let b1 ← m.getByte (address+1)
  let b2 ← m.getByte (address+2)
  let b3 ← m.getByte (address+3)
  let b4 ← m.getByte (address+4)
  let b5 ← m.getByte (address+5)
  let b6 ← m.getByte (address+6)
  let b7 ← m.getByte (address+7)
  pure (b0 + 256 * b1 + 65536 * b2 + 16777216 * b3 + 4294967296 * b4 +
        1099511627776 * b5 + 281474976710656 * b6 + 72057594037927936 * b7)

/-- The `value` parameter has Rust type `u8`; `% 256` models the type bound. -/
def write_u8 (m : Memory) (address value : Nat) : Except Cond Memory :=
  m.setByte address (value % 256)

/-- Decompose with `value.to_le_bytes()` of a `u16`: byte i is `value / 256^i % 256`. -/
def write_u16 (m : Memory) (address value : Nat) : Except Cond Memory := do
  let m0 ← m.setByte address (value % 256)
  let m1 ← m0.setByte (address+1) (value / 256 % 256)
  pure m1

def write_u32 (m : Memory) (address value : Nat) : Except Cond Memory := do
  let m0 ← m.setByte address (value % 256)
  let m1 ← m0.setByte (address+1) (value / 256 % 256)
  let m2 ← m1.setByte (address+2) (value / 65536 % 256)
  let m3 ← m2.setByte (address+3) (value / 16777216 % 256)
  pure m3

def write_u64 (m : Memory) (address value : Nat) : Except Cond Memory := do
  let m0 ← m.setByte address (value % 256)
  let m1 ← m0.setByte (address+1) (value / 256 % 256)
  let m2 ← m1.setByte (address+2) (value / 65536 % 256)
  let m3 ← m2.setByte (address+3) (value / 16777216 % 256)
  let m4 ← m3.setByte (address+4) (value / 4294967296 % 256)
  let m5 ← m4.setByte (address+5) (value / 1099511627776 % 256)
  let m6 ← m5.setByte (address+6) (value / 281474976710656 % 256)
  let m7 ← m6.setByte (address+7) (value / 72057594037927936 % 256)
  pure m7

/-- The byte stored at an address (0 when out of range); specification
helper for relating reads and writes to raw contents. -/
def byteAt (m : Memory) (a : Nat) : Nat :=
  (m.contents[a]?).getD 0

/-- Width-dispatching read, used to state properties uniformly. -/
def readV (m : Memory) (address : Nat) : Width → Except Cond Nat
  | .Byte => m.read_u8 address
  | .Word => m.read_u16 address
  | .DoubleWord => m.read_u32 address
  | .QuadWord => m.read_u64 address

/-- Width-dispatching write, used to state properties uniformly. -/
def writeV (m : Memory) (address value : Nat) : Width → Except Cond Memory
  | .Byte => m.write_u8 address value
  | .Word => m.write_u16 address value
  | .DoubleWord => m.write_u32 address value
  | .QuadWord => m.write_u64 address value

end Memory

/-- Source `machine.rs`: program counter plus data memory. -/
structure MachineState where
  pc : Nat
  data : Memory
deriving DecidableEq, Repr

/-- Source `MachineState::execute`.  Rust's `wrapping_add` on `uN` is
`(v + w) % 2^N`; `u64 -> uN` `try_into().unwrap()` fails (before any
memory access, by argument evaluation order) when the value does not
fit, modelled as `ImmediateOverflow`; `pc -= -i as usize` underflow is
`PcUnderflow`. -/
def MachineState.execute (s : MachineState) (insn : MicroCode) : Except Cond MachineState :=
  match insn with
  | .Add x y .Byte => do
      let v ← s.data.read_u8 x
      let u ← s.data.read_u8 y
      let d ← s.data.write_u8 x ((v + u) % 256)
      pure ⟨s.pc + 1, d⟩
  | .Add x y .Word => do
      let v ← s.data.read_u16 x
      let u ← s.data.read_u16 y
      let d ← s.data.write_u16 x ((v + u) % 65536)
      pure ⟨s.pc + 1, d⟩
  | .Add x y .DoubleWord => do
      let v ← s.data.read_u32 x
      let u ← s.data.read_u32 y
      let d ← s.data.write_u32 x ((v + u) % 4294967296)
      pure ⟨s.pc + 1, d⟩
  | .Add x y .QuadWord => do
      let v ← s.data.read_u64 x
      let u ← s.data.read_u64 y
      let d ← s.data.write_u64 x ((v + u) % 18446744073709551616)
      pure ⟨s.pc + 1, d⟩
  | .Copy x y .Byte => do
      let v ← s.data.read_u8 y
      let d ← s.data.write_u8 x v
      pure ⟨s.pc + 1, d⟩
  | .Copy x y .Word => do
      let v ← s.data.read_u16 y
      let d ← s.data.write_u16 x v
      pure ⟨s.pc + 1, d⟩
  | .Copy x y .DoubleWord => do
      let v ← s.data.read_u32 y
      let d ← s.data.write_u32 x v
      pure ⟨s.pc + 1, d⟩
  | .Copy x y .QuadWord => do
      let v ← s.data.read_u64 y
      let d ← s.data.write_u64 x v
      pure ⟨s.pc + 1, d⟩
  | .Goto i => pure ⟨i, s.data⟩
  | .Jump i =>
      if i < 0 then
        if s.pc < (-i).toNat then .error .PcUnderflow
        else pure ⟨s.pc - (-i).toNat, s.data⟩
      else pure ⟨s.pc + i.toNat, s.data⟩
  | .Load x i .Byte =>
      if i < 256 then do
        let d ← s.data.write_u8 x i
        pure ⟨s.pc + 1, d⟩
      else .error .ImmediateOverflow
  | .Load x i .Word =>
      if i < 65536 then do
        let d ← s.data.write_u16 x i
        pure ⟨s.pc + 1, d⟩
      else .error .ImmediateOverflow
  | .Load x i .DoubleWord =>
      if i < 4294967296 then do
        let d ← s.data.write_u32 x i
        pure ⟨s.pc + 1, d⟩
      else .error .ImmediateOverflow
  | .Load x i .QuadWord => do
      let d ← s.data.write_u64 x i
      pure ⟨s.pc + 1, d⟩

-- ================================================================
-- domain.rs
-- ================================================================

/-- Source `domain.rs`: positive count of bits (`value: u8`, invariant `value > 0`). -/
structure Bits where
  value : Nat
deriving DecidableEq, Repr

/-- Source `domain.rs`: positive count of bytes (`value: u8`, invariant `value > 0`). -/
structure Bytes where
  value : Nat
deriving DecidableEq, Repr

/-- Source `impl From<u8> for Bits`: `assert!(value != 0)` then wrap. -/
def Bits.from_u8 (value : Nat) : Except Cond Bits :=
  if value ≠ 0 then .ok ⟨value⟩ else .error .InvalidWidth

/-- Source `impl From<u8> for Bytes`: `assert!(value != 0)` then wrap. -/
def Bytes.from_u8 (value : Nat) : Except Cond Bytes :=
  if value ≠ 0 then .ok ⟨value⟩ else .error .InvalidWidth

/-- Source `Countable for Bits`: start from 1 and double `value` times
(`BigUint` arithmetic is arbitrary precision, i.e. `Nat`). -/
def Bits.count (b : Bits) : Nat :=
  (List.range b.value).foldl (fun c _ => c * 2) 1

/-- Source `Countable for Bytes`: start from 1 and multiply by 256 `value` times. -/
def Bytes.count (b : Bytes) : Nat :=
  (List.range b.value).foldl (fun c _ => c * 256) 1

-- ================================================================
-- insn.rs: Format
-- ================================================================

/-- Source `insn.rs`: an instruction-class format. -/
structure Format where
  width : Bytes
  label : String
  opcode : Bits
  operands : List Bits
deriving DecidableEq, Repr

/-- Source `Countable for Format`: opcode count times the product of the
operand counts, folded left as in the source loop. -/
def Format.count (f : Format) : Nat :=
  f.operands.foldl (fun c op => c * op.count) f.opcode.count

/-- Source `Format::new`: builds the record then
`assert!(width.count() >= r.count())`. -/
def Format.new (width : Bytes) (label : String) (opcode : Bits)
    (operands : List Bits) : Except Cond Format :=
  let r : Format := ⟨width, label, opcode, operands⟩
  if width.count ≥ r.count then .ok r else .error .FormatTooWide

-- ================================================================
-- insn.rs: Operand / AbstractMicroCode / Instruction
-- ================================================================

/-- Source `insn.rs`: an operand expression. -/
inductive Operand where
  | Const (i : Nat)
  | Var (v : Nat)
deriving DecidableEq, Repr

/-- Source `Operand::arity`: constants need no operands, `Var(v)` needs `v + 1`. -/
def Operand.arity : Operand → Nat
  | .Const _ => 0
  | .Var v => v + 1

/-- Source `Operand::as_usize`: `Const(i) -> i`; `Var(v) -> operands[v]`, where
the slice index panics when `v` is out of range (the specification's
`OperandIndexOutOfRange` condition). -/
def Operand.as_usize (o : Operand) (operands : List Nat) : Except Cond Nat :=
  match o with
  | .Const i => .ok i
  | .Var v =>
      match operands[v]? with
      | some n => .ok n
      | none => .error .OperandIndexOutOfRange

/-- Source `insn.rs`: abstract (template) microcode. -/
inductive AbstractMicroCode where
  | Copy (x y : Operand) (w : Width)
  | Goto (i : Operand)
  | Jump (i : Operand)
  | Load (x : Operand) (i : Nat) (w : Width)
deriving DecidableEq, Repr

/-- Source `AbstractMicroCode::arity`: `cmp::max` over the contained operand
arities for `Copy` and `Load`; the source's `Goto`/`Jump` arms are
`todo!("implement more instructions")`, modelled as `Unimplemented`. -/
def AbstractMicroCode.arity : AbstractMicroCode → Except Cond Nat
  | .Copy x y _ => .ok (max x.arity y.arity)
  | .Load x _ _ => .ok x.arity
  | .Goto _ => .error .Unimplemented
  | .Jump _ => .error .Unimplemented

/-- Source `AbstractMicroCode::to_microcode`: resolve each contained operand
with `as_usize`; the source's `Goto`/`Jump` arms are
`todo!("implement more instructions")`. -/
def AbstractMicroCode.to_microcode (c : AbstractMicroCode) (operands : List Nat) :
    Except Cond MicroCode :=
  match c with
  | .Copy x y w => do
      let l ← x.as_usize operands
      let r ← y.as_usize operands
      pure (.Copy l r w)
  | .Load x i w => do
      let l ← x.as_usize operands
      pure (.Load l i w)
  | .Goto _ => .error .Unimplemented
  | .Jump _ => .error .Unimplemented

/-- Source `insn.rs`: an instruction definition. -/
structure Instruction where
  mnemonic : String
  format : Format
  semantic : List AbstractMicroCode
deriving DecidableEq, Repr

/-- The `for code in semantic { assert!(code.arity() <= format.operands.len()) }`
loop of `Instruction::new`, with the arity `todo!` propagated. -/
def checkArities (fmt : Format) : List AbstractMicroCode → Except Cond Unit
  | [] => .ok ()
  | c :: rest => do
      let a ← c.arity
      if a ≤ fmt.operands.length then checkArities fmt rest
      else .error .ArityMismatch

/-- Source `Instruction::new`: arity-check every abstract op against the
format's operand count, then build the record. -/
def Instruction.new (mnemonic : String) (format : Format)
    (semantic : List AbstractMicroCode) : Except Cond Instruction := do
  checkArities format semantic
  pure ⟨mnemonic, format, semantic⟩

/-- The `for c in self.semantic { microcode.push(c.to_microcode(operands)) }`
loop of `Instruction::to_microcode`. -/
def lowerList (operands : List Nat) : List AbstractMicroCode → Except Cond (List MicroCode)
  | [] => .ok []
  | c :: rest => do
      let m ← c.to_microcode operands
      let ms ← lowerList operands rest
      pure (m :: ms)

/-- Source `Instruction::to_microcode`: lower every semantic op in order. -/
def Instruction.to_microcode (insn : Instruction) (operands : List Nat) :
    Except Cond (List MicroCode) :=
  lowerList operands insn.semantic

/-- Specification helper: store a list of bytes at consecutive
addresses (the shape every multi-byte write produces). -/
def setChain (l : List Nat) (a : Nat) : List Nat → List Nat
  | [] => l
  | b :: bs => setChain (l.set a b) (a+1) bs

-- ================================================================
-- Helper lemmas: Except bind, byte access
-- ================================================================

@[simp]
theorem ok_bind {α β : Type} (a : α) (f : α → Except Cond β) :
    (Except.ok a : Except Cond α) >>= f = f a := rfl

@[simp]
theorem error_bind {α β : Type} (e : Cond) (f : α → Except Cond β) :
    (Except.error e : Except Cond α) >>= f = .error e := rfl

@[simp]
theorem pure_eq_ok {α : Type} (a : α) : (pure a : Except Cond α) = .ok a := rfl

namespace Memory

theorem getByte_ok {m : Memory} {a : Nat} (h : a < m.contents.length) :
    m.getByte a = .ok (m.byteAt a) := by
  unfold getByte byteAt
  rw [List.getElem?_eq_getElem h]
  rfl

theorem setByte_ok {m : Memory} {a : Nat} (v : Nat) (h : a < m.contents.length) :
    m.setByte a v = .ok ⟨m.contents.set a v⟩ := by
  simp [setByte, h]

@[simp]
theorem byteAt_mk_set_self {l : List Nat} {a v : Nat} (h : a < l.length) :
    byteAt ⟨l.set a v⟩ a = v := by
  unfold byteAt
  simp [List.getElem?_set_self', List.getElem?_eq_getElem h]

theorem byteAt_mk_set_ne {l : List Nat} {a b v : Nat} (h : a ≠ b) :
    byteAt ⟨l.set a v⟩ b = byteAt ⟨l⟩ b := by
  unfold byteAt
  rw [List.getElem?_set_ne h]

end Memory

@[simp]
theorem length_setChain (bs : List Nat) (l : List Nat) (a : Nat) :
    (setChain l a bs).length = l.length := by
  induction bs generalizing l a with
  | nil => rfl
  | cons b bs ih => simp [setChain, ih]

theorem getElem?_setChain_outside (bs : List Nat) (l : List Nat) (a j : Nat)
    (hj : j < a ∨ a + bs.length ≤ j) :
    (setChain l a bs)[j]? = l[j]? := by
  induction bs generalizing l a with
  | nil => rfl
  | cons b bs ih =>
      have hlen : (b :: bs).length = bs.length + 1 := rfl
      rw [hlen] at hj
      have h1 : j < a + 1 ∨ (a + 1) + bs.length ≤ j := by
        rcases hj with h | h
        · exact Or.inl (by omega)
        · exact Or.inr (by omega)
      have hne : a ≠ j := by
        rcases hj with h | h
        · omega
        · omega
      rw [setChain, ih _ _ h1, List.getElem?_set_ne hne]

theorem byteAt_setChain_inside (bs : List Nat) (l : List Nat) (a j : Nat)
    (hlen : a + bs.length ≤ l.length) (hj : j < bs.length) :
    Memory.byteAt ⟨setChain l a bs⟩ (a + j) = bs.getD j 0 := by
  induction bs generalizing l a j with
  | nil => simp at hj
  | cons b bs ih =>
      rw [List.length_cons] at hlen
      match j with
      | 0 =>
          have h0 : Memory.byteAt ⟨setChain (l.set a b) (a+1) bs⟩ a
              = Memory.byteAt ⟨l.set a b⟩ a := by
            unfold Memory.byteAt
            rw [getElem?_setChain_outside _ _ _ _ (Or.inl (by omega))]
          have hb : Memory.byteAt ⟨l.set a b⟩ a = b :=
            Memory.byteAt_mk_set_self (by omega)
          rw [setChain]
          show Memory.byteAt ⟨setChain (l.set a b) (a+1) bs⟩ a = (b :: bs).getD 0 0
          rw [h0, hb]
          rfl
      | j' + 1 =>
          rw [List.length_cons] at hj
          have hstep : a + (j' + 1) = (a + 1) + j' := by omega
          have hlen' : (a + 1) + bs.length ≤ (l.set a b).length := by
            rw [List.length_set]; omega
          rw [setChain, hstep, ih _ _ _ hlen' (by omega)]
          rfl

namespace Memory

theorem read_u8_ok (m : Memory) (a : Nat) (h : a + 1 ≤ m.contents.length) :
    m.read_u8 a = .ok (m.byteAt a) := by
  rw [read_u8, getByte_ok (by omega)]

theorem read_u16_ok (m : Memory) (a : Nat) (h : a + 2 ≤ m.contents.length) :
    m.read_u16 a = .ok (m.byteAt a + 256 * m.byteAt (a+1)) := by
  unfold read_u16
  rw [getByte_ok (by omega), ok_bind, getByte_ok (by omega), ok_bind, pure_eq_ok]

theorem read_u32_ok (m : Memory) (a : Nat) (h : a + 4 ≤ m.contents.length) :
    m.read_u32 a = .ok (m.byteAt a + 256 * m.byteAt (a+1) + 65536 * m.byteAt (a+2) +
      16777216 * m.byteAt (a+3)) := by
  unfold read_u32
  rw [getByte_ok (by omega), ok_bind, getByte_ok (by omega), ok_bind,
      getByte_ok (by omega), ok_bind, getByte_ok (by omega), ok_bind, pure_eq_ok]

theorem read_u64_ok (m : Memory) (a : Nat) (h : a + 8 ≤ m.contents.length) :
    m.read_u64 a = .ok (m.byteAt a + 256 * m.byteAt (a+1) + 65536 * m.byteAt (a+2) +
      16777216 * m.byteAt (a+3) + 4294967296 * m.byteAt (a+4) +
      1099511627776 * m.byteAt (a+5) + 281474976710656 * m.byteAt (a+6) +
      72057594037927936 * m.byteAt (a+7)) := by
  unfold read_u64
  rw [getByte_ok (by omega), ok_bind, getByte_ok (by omega), ok_bind,
      getByte_ok (by omega), ok_bind, getByte_ok (by omega), ok_bind,
      getByte_ok (by omega), ok_bind, getByte_ok (by omega), ok_bind,
      getByte_ok (by omega), ok_bind, getByte_ok (by omega), ok_bind, pure_eq_ok]

theorem write_u8_ok (m : Memory) (a : Nat) (v : Nat) (h : a + 1 ≤ m.contents.length) :
    m.write_u8 a v = .ok ⟨setChain m.contents a [v % 256]⟩ := by
  rw [write_u8, setByte_ok _ (by omega)]
  rfl

theorem write_u16_ok (m : Memory) (a : Nat) (v : Nat) (h : a + 2 ≤ m.contents.length) :
    m.write_u16 a v = .ok ⟨setChain m.contents a [v % 256, v / 256 % 256]⟩ := by
  unfold write_u16
  rw [setByte_ok _ (by omega), ok_bind,
      setByte_ok _ (by simp only [List.length_set]; omega), ok_bind, pure_eq_ok]
  rfl

theorem write_u32_ok (m : Memory) (a : Nat) (v : Nat) (h : a + 4 ≤ m.contents.length) :
    m.write_u32 a v = .ok ⟨setChain m.contents a
      [v % 256, v / 256 % 256, v / 65536 % 256, v / 16777216 % 256]⟩ := by
  unfold write_u32
  rw [setByte_ok _ (by omega), ok_bind,
      setByte_ok _ (by simp only [List.length_set]; omega), ok_bind,
      setByte_ok _ (by simp only [List.length_set]; omega), ok_bind,
      setByte_ok _ (by simp only [List.length_set]; omega), ok_bind, pure_eq_ok]
  rfl

theorem write_u64_ok (m : Memory) (a : Nat) (v : Nat) (h : a + 8 ≤ m.contents.length) :
    m.write_u64 a v = .ok ⟨setChain m.contents a
      [v % 256, v / 256 % 256, v / 65536 % 256, v / 16777216 % 256,
       v / 4294967296 % 256, v / 1099511627776 % 256, v / 281474976710656 % 256,
       v / 72057594037927936 % 256]⟩ := by
  unfold write_u64
  rw [setByte_ok _ (by omega), ok_bind,
      setByte_ok _ (by simp only [List.length_set]; omega), ok_bind,
      setByte_ok _ (by simp only [List.length_set]; omega), ok_bind,
      setByte_ok _ (by simp only [List.length_set]; omega), ok_bind,
      setByte_ok _ (by simp only [List.length_set]; omega), ok_bind,
      setByte_ok _ (by simp only [List.length_set]; omega), ok_bind,
      setByte_ok _ (by simp only [List.length_set]; omega), ok_bind,
      setByte_ok _ (by simp only [List.length_set]; omega), ok_bind, pure_eq_ok]
  rfl

end Memory

-- ================================================================
-- Helper lemmas: counting, arity checking, lowering
-- ================================================================

theorem foldl_mul_const (k : Nat) (n : Nat) : ∀ acc : Nat,
    (List.range n).foldl (fun c _ => c * k) acc = acc * k ^ n := by
  induction n with
  | zero => intro acc; simp
  | succ n ih =>
      intro acc
      rw [List.range_succ, List.foldl_append, ih acc]
      simp [List.foldl]
      ring

theorem bits_count_pow (n : Nat) : Bits.count ⟨n⟩ = 2 ^ n := by
  rw [Bits.count, foldl_mul_const]
  exact Nat.one_mul _

theorem bytes_count_pow (n : Nat) : Bytes.count ⟨n⟩ = 256 ^ n := by
  rw [Bytes.count, foldl_mul_const]
  exact Nat.one_mul _

theorem foldl_mul_count (l : List Bits) : ∀ init : Nat,
    l.foldl (fun c op => c * op.count) init = init * (l.map Bits.count).prod := by
  induction l with
  | nil => intro init; simp
  | cons b bs ih =>
      intro init
      rw [List.foldl_cons, ih]
      simp
      ring

theorem format_count_prod (f : Format) :
    f.count = f.opcode.count * (f.operands.map Bits.count).prod := by
  rw [Format.count, foldl_mul_count]

/-- Every abstract op's arity is either defined or the `todo!` condition. -/
theorem arity_total (c : AbstractMicroCode) :
    (∃ a, c.arity = .ok a) ∨ c.arity = .error .Unimplemented := by
  cases c with
  | Copy x y w => exact Or.inl ⟨max x.arity y.arity, rfl⟩
  | Load x i w => exact Or.inl ⟨x.arity, rfl⟩
  | Goto i => exact Or.inr rfl
  | Jump i => exact Or.inr rfl

theorem checkArities_spec (fmt : Format) (sem : List AbstractMicroCode)
    (hdef : ∀ c ∈ sem, c.arity ≠ .error .Unimplemented) :
    (checkArities fmt sem = .error .ArityMismatch ↔
      ∃ c ∈ sem, ∃ a, c.arity = .ok a ∧ fmt.operands.length < a) ∧
    ((¬∃ c ∈ sem, ∃ a, c.arity = .ok a ∧ fmt.operands.length < a) →
      checkArities fmt sem = .ok ()) := by
  induction sem with
  | nil =>
      constructor
      · constructor
        · intro h; simp [checkArities] at h
        · intro h; simp at h
      · intro _; rfl
  | cons c rest ih =>
      obtain ⟨a, ha⟩ | hbad := arity_total c
      · have hrest := ih (fun d hd => hdef d (List.mem_cons_of_mem _ hd))
        rw [checkArities, ha, ok_bind]
        by_cases hle : a ≤ fmt.operands.length
        · rw [if_pos hle]
          constructor
          · constructor
            · intro h
              obtain ⟨d, hd, a', ha', hlt⟩ := hrest.1.mp h
              exact ⟨d, List.mem_cons_of_mem _ hd, a', ha', hlt⟩
            · rintro ⟨d, hd, a', ha', hlt⟩
              rcases List.mem_cons.mp hd with rfl | hd'
              · rw [ha] at ha'
                cases ha'
                omega
              · exact hrest.1.mpr ⟨d, hd', a', ha', hlt⟩
          · intro hno
            exact hrest.2 (fun ⟨d, hd, a', ha', hlt⟩ =>
              hno ⟨d, List.mem_cons_of_mem _ hd, a', ha', hlt⟩)
        · rw [if_neg hle]
          constructor
          · constructor
            · intro _
              exact ⟨c, List.mem_cons_self _ _, a, ha, by omega⟩
            · intro _; rfl
          · intro hno
            exact absurd ⟨c, List.mem_cons_self _ _, a, ha, by omega⟩ hno
      · exact absurd hbad (hdef c (List.mem_cons_self _ _))

theorem lowerList_ok_spec (operands : List Nat) (sem : List AbstractMicroCode)
    (ms : List MicroCode) (h : lowerList operands sem = .ok ms) :
    ms.length = sem.length ∧
    ∀ (k : Nat) (hk : k < sem.length) (hk2 : k < ms.length),
      (sem.get ⟨k, hk⟩).to_microcode operands = .ok (ms.get ⟨k, hk2⟩) := by
  induction sem generalizing ms with
  | nil =>
      rw [lowerList] at h
      cases h
      exact ⟨rfl, fun k hk _ => absurd hk (by simp)⟩
  | cons c rest ih =>
      rw [lowerList] at h
      cases hc : c.to_microcode operands with
      | error e => rw [hc] at h; simp at h
      | ok mc =>
          rw [hc, ok_bind] at h
          cases hr : lowerList operands rest with
          | error e => rw [hr] at h; simp at h
          | ok mrest =>
              rw [hr, ok_bind, pure_eq_ok] at h
              cases h
              obtain ⟨hlen, hget⟩ := ih mrest hr
              refine ⟨by simp [hlen], ?_⟩
              intro k hk hk2
              match k with
              | 0 => exact hc
              | k' + 1 =>
                  exact hget k' (by simp at hk; omega) (by simp at hk2; omega)

theorem lowerList_total (operands : List Nat) (sem : List AbstractMicroCode)
    (h : ∀ c ∈ sem, ∃ mc, c.to_microcode operands = .ok mc) :
    ∃ ms, lowerList operands sem = .ok ms := by
  induction sem with
  | nil => exact ⟨[], rfl⟩
  | cons c rest ih =>
      obtain ⟨mc, hmc⟩ := h c (List.mem_cons_self _ _)
      obtain ⟨mrest, hmrest⟩ := ih (fun d hd => h d (List.mem_cons_of_mem _ hd))
      exact ⟨mc :: mrest, by rw [lowerList, hmc, ok_bind, hmrest, ok_bind, pure_eq_ok]⟩

theorem getByte_setChain_inside (m : Memory) (a : Nat) (bs : List Nat) (i : Nat)
    (hlen : a + bs.length ≤ m.contents.length) (hi : i < bs.length) :
    Memory.getByte ⟨setChain m.contents a bs⟩ (a + i) = .ok (bs.getD i 0) := by
  rw [Memory.getByte_ok (by rw [show (⟨setChain m.contents a bs⟩ : Memory).contents
        = setChain m.contents a bs from rfl, length_setChain]; omega)]
  rw [byteAt_setChain_inside _ _ _ _ hlen hi]

theorem readV_setChain_u8 (m : Memory) (a b0 : Nat) (h : a + 1 ≤ m.contents.length) :
    Memory.readV ⟨setChain m.contents a [b0]⟩ a .Byte = .ok b0 := by
  have h0 : Memory.byteAt ⟨setChain m.contents a [b0]⟩ a = b0 :=
    byteAt_setChain_inside [b0] m.contents a 0 (by simpa using h) (by simp)
  show Memory.read_u8 ⟨setChain m.contents a [b0]⟩ a = .ok b0
  rw [Memory.read_u8_ok ⟨setChain m.contents a [b0]⟩ a (show a + 1 ≤ (setChain m.contents a [b0]).length by
        rw [length_setChain]; omega), h0]

theorem readV_setChain_u16 (m : Memory) (a b0 b1 : Nat) (h : a + 2 ≤ m.contents.length) :
    Memory.readV ⟨setChain m.contents a [b0, b1]⟩ a .Word = .ok (b0 + 256 * b1) := by
  have h0 : Memory.byteAt ⟨setChain m.contents a [b0, b1]⟩ a = b0 :=
    byteAt_setChain_inside [b0, b1] m.contents a 0 (by simpa using h) (by simp)
  have h1 : Memory.byteAt ⟨setChain m.contents a [b0, b1]⟩ (a + 1) = b1 :=
    byteAt_setChain_inside [b0, b1] m.contents a 1 (by simpa using h) (by simp)
  show Memory.read_u16 ⟨setChain m.contents a [b0, b1]⟩ a = .ok (b0 + 256 * b1)
  rw [Memory.read_u16_ok ⟨setChain m.contents a [b0, b1]⟩ a (show a + 2 ≤ (setChain m.contents a [b0, b1]).length by
        rw [length_setChain]; omega), h0, h1]

theorem readV_setChain_u32 (m : Memory) (a b0 b1 b2 b3 : Nat)
    (h : a + 4 ≤ m.contents.length) :
    Memory.readV ⟨setChain m.contents a [b0, b1, b2, b3]⟩ a .DoubleWord
      = .ok (b0 + 256 * b1 + 65536 * b2 + 16777216 * b3) := by
  have h0 : Memory.byteAt ⟨setChain m.contents a [b0, b1, b2, b3]⟩ a = b0 :=
    byteAt_setChain_inside [b0, b1, b2, b3] m.contents a 0 (by simpa using h) (by simp)
  have h1 : Memory.byteAt ⟨setChain m.contents a [b0, b1, b2, b3]⟩ (a + 1) = b1 :=
    byteAt_setChain_inside [b0, b1, b2, b3] m.contents a 1 (by simpa using h) (by simp)
  have h2 : Memory.byteAt ⟨setChain m.contents a [b0, b1, b2, b3]⟩ (a + 2) = b2 :=
    byteAt_setChain_inside [b0, b1, b2, b3] m.contents a 2 (by simpa using h) (by simp)
  have h3 : Memory.byteAt ⟨setChain m.contents a [b0, b1, b2, b3]⟩ (a + 3) = b3 :=
    byteAt_setChain_inside [b0, b1, b2, b3] m.contents a 3 (by simpa using h) (by simp)
  show Memory.read_u32 ⟨setChain m.contents a [b0, b1, b2, b3]⟩ a = _
  rw [Memory.read_u32_ok ⟨setChain m.contents a [b0, b1, b2, b3]⟩ a (show a + 4 ≤ (setChain m.contents a [b0, b1, b2, b3]).length by
        rw [length_setChain]; omega), h0, h1, h2, h3]

theorem readV_setChain_u64 (m : Memory) (a b0 b1 b2 b3 b4 b5 b6 b7 : Nat)
    (h : a + 8 ≤ m.contents.length) :
    Memory.readV ⟨setChain m.contents a [b0, b1, b2, b3, b4, b5, b6, b7]⟩ a .QuadWord
      = .ok (b0 + 256 * b1 + 65536 * b2 + 16777216 * b3 + 4294967296 * b4 +
        1099511627776 * b5 + 281474976710656 * b6 + 72057594037927936 * b7) := by
  have h0 : Memory.byteAt ⟨setChain m.contents a [b0, b1, b2, b3, b4, b5, b6, b7]⟩ a = b0 :=
    byteAt_setChain_inside _ m.contents a 0 (by simpa using h) (by simp)
  have h1 : Memory.byteAt ⟨setChain m.contents a [b0, b1, b2, b3, b4, b5, b6, b7]⟩ (a + 1) = b1 :=
    byteAt_setChain_inside _ m.contents a 1 (by simpa using h) (by simp)
  have h2 : Memory.byteAt ⟨setChain m.contents a [b0, b1, b2, b3, b4, b5, b6, b7]⟩ (a + 2) = b2 :=
    byteAt_setChain_inside _ m.contents a 2 (by simpa using h) (by simp)
  have h3 : Memory.byteAt ⟨setChain m.contents a [b0, b1, b2, b3, b4, b5, b6, b7]⟩ (a + 3) = b3 :=
    byteAt_setChain_inside _ m.contents a 3 (by simpa using h) (by simp)
  have h4 : Memory.byteAt ⟨setChain m.contents a [b0, b1, b2, b3, b4, b5, b6, b7]⟩ (a + 4) = b4 :=
    byteAt_setChain_inside _ m.contents a 4 (by simpa using h) (by simp)
  have h5 : Memory.byteAt ⟨setChain m.contents a [b0, b1, b2, b3, b4, b5, b6, b7]⟩ (a + 5) = b5 :=
    byteAt_setChain_inside _ m.contents a 5 (by simpa using h) (by simp)
  have h6 : Memory.byteAt ⟨setChain m.contents a [b0, b1, b2, b3, b4, b5, b6, b7]⟩ (a + 6) = b6 :=
    byteAt_setChain_inside _ m.contents a 6 (by simpa using h) (by simp)
  have h7 : Memory.byteAt ⟨setChain m.contents a [b0, b1, b2, b3, b4, b5, b6, b7]⟩ (a + 7) = b7 :=
    byteAt_setChain_inside _ m.contents a 7 (by simpa using h) (by simp)
  show Memory.read_u64 ⟨setChain m.contents a [b0, b1, b2, b3, b4, b5, b6, b7]⟩ a = _
  rw [Memory.read_u64_ok ⟨setChain m.contents a [b0, b1, b2, b3, b4, b5, b6, b7]⟩ a
        (show a + 8 ≤ (setChain m.contents a [b0, b1, b2, b3, b4, b5, b6, b7]).length by
          rw [length_setChain]; omega), h0, h1, h2, h3, h4, h5, h6, h7]

-- ================================================================
-- Claims
-- ================================================================

/-- C1 (counterexample): the claim quantifies over every
`AbstractMicroCode` op, but lowering a `Goto` op does not resolve its
contained `Const(0)` operand to `Goto(0)` — the source's `Goto` arm of
`to_microcode` is `todo!("implement more instructions")`, so lowering
fails with the `Unimplemented` condition even though the operand
expression itself resolves. -/
theorem C1_goto_counterexample :
    AbstractMicroCode.to_microcode (.Goto (.Const 0)) [] = .error .Unimplemented ∧
    Operand.as_usize (.Const 0) [] = .ok 0 ∧
    AbstractMicroCode.to_microcode (.Goto (.Const 0)) [] ≠ .ok (.Goto 0) := by
  exact ⟨rfl, rfl, by decide⟩

/-- C1 (amended): for the implemented op shapes (`Copy`, `Load`),
lowering resolves each contained `Operand` by `Const(v) -> v` and
`Var(i) -> concrete_operands[i]`; a `Var(i)` with `i` out of range of
the supplied operand sequence fails with `OperandIndexOutOfRange`; and
`Instruction::to_microcode` lowers every element of the semantic list
in order: when it succeeds the output has the same length and its k-th
element is the lowering of the k-th semantic op, and it succeeds
whenever every element lowers successfully. -/
theorem C1_lowering_contract :
    (∀ (ops : List Nat) (v : Nat), Operand.as_usize (.Const v) ops = .ok v) ∧
    (∀ (ops : List Nat) (i : Nat) (h : i < ops.length),
      Operand.as_usize (.Var i) ops = .ok (ops.get ⟨i, h⟩)) ∧
    (∀ (ops : List Nat) (i : Nat), ops.length ≤ i →
      Operand.as_usize (.Var i) ops = .error .OperandIndexOutOfRange) ∧
    (∀ (x y : Operand) (w : Width) (ops : List Nat) (lx ly : Nat),
      x.as_usize ops = .ok lx → y.as_usize ops = .ok ly →
      AbstractMicroCode.to_microcode (.Copy x y w) ops = .ok (.Copy lx ly w)) ∧
    (∀ (x : Operand) (i : Nat) (w : Width) (ops : List Nat) (lx : Nat),
      x.as_usize ops = .ok lx →
      AbstractMicroCode.to_microcode (.Load x i w) ops = .ok (.Load lx i w)) ∧
    (∀ (insn : Instruction) (ops : List Nat) (ms : List MicroCode),
      insn.to_microcode ops = .ok ms →
      ms.length = insn.semantic.length ∧
      ∀ (k : Nat) (hk : k < insn.semantic.length) (hk2 : k < ms.length),
        (insn.semantic.get ⟨k, hk⟩).to_microcode ops = .ok (ms.get ⟨k, hk2⟩)) ∧
    (∀ (insn : Instruction) (ops : List Nat),
      (∀ c ∈ insn.semantic, ∃ mc, c.to_microcode ops = .ok mc) →
      ∃ ms, insn.to_microcode ops = .ok ms) := by
  refine ⟨fun ops v => rfl, ?_, ?_, ?_, ?_, ?_, ?_⟩
  · intro ops i h
    simp [Operand.as_usize, List.getElem?_eq_getElem h, List.get_eq_getElem]
  · intro ops i h
    simp [Operand.as_usize, List.getElem?_eq_none_iff.mpr h]
  · intro x y w ops lx ly hx hy
    rw [AbstractMicroCode.to_microcode, hx, ok_bind, hy, ok_bind, pure_eq_ok]
  · intro x i w ops lx hx
    rw [AbstractMicroCode.to_microcode, hx, ok_bind, pure_eq_ok]
  · intro insn ops ms h
    exact lowerList_ok_spec ops insn.semantic ms h
  · intro insn ops h
    exact lowerList_total ops insn.semantic h

/-- C1 (witness): the amended contract applied to concrete inputs. -/
theorem C1_lowering_contract_witness :
    Operand.as_usize (.Var 0) [7] = .ok 7 ∧
    Operand.as_usize (.Var 2) [7] = .error .OperandIndexOutOfRange ∧
    AbstractMicroCode.to_microcode (.Copy (.Var 0) (.Const 5) .Byte) [7]
      = .ok (.Copy 7 5 .Byte) ∧
    ∃ ms, Instruction.to_microcode
      ⟨"insn", ⟨⟨1⟩, "fmt", ⟨4⟩, [⟨4⟩]⟩, [.Load (.Var 0) 0 .Byte]⟩ [1] = .ok ms := by
  obtain ⟨h1, h2, h3, h4, h5, h6, h7⟩ := C1_lowering_contract
  refine ⟨?_, h3 [7] 2 (by decide), ?_, ?_⟩
  · have := h2 [7] 0 (by decide)
    simpa using this
  · exact h4 (.Var 0) (.Const 5) .Byte [7] 7 5 (by decide) rfl
  · exact h7 _ [1] (by intro c hc; simp at hc; subst hc; exact ⟨.Load 1 0 .Byte, rfl⟩)

/-- C2: the claim says every op shape — `Copy`, `Load`, `Goto`, `Jump` —
has a defined arity equal to the maximum arity requirement over its
contained operand expressions.  `Copy` and `Load` do (and `Const`/`Var`
contribute 0 and i+1 as claimed), but the source's `Goto` and `Jump`
arity arms are `todo!("implement more instructions")`: evaluating the
code at those op shapes fails with the `Unimplemented` condition
instead of returning a value. -/
theorem C2_arity_coverage :
    (∀ v : Nat, (Operand.Const v).arity = 0) ∧
    (∀ i : Nat, (Operand.Var i).arity = i + 1) ∧
    (∀ (x y : Operand) (w : Width),
      (AbstractMicroCode.Copy x y w).arity = .ok (max x.arity y.arity)) ∧
    (∀ (x : Operand) (i : Nat) (w : Width),
      (AbstractMicroCode.Load x i w).arity = .ok x.arity) ∧
    (∀ o : Operand, (AbstractMicroCode.Goto o).arity = .error .Unimplemented) ∧
    (∀ o : Operand, (AbstractMicroCode.Jump o).arity = .error .Unimplemented) :=
  ⟨fun _ => rfl, fun _ => rfl, fun _ _ _ => rfl, fun _ _ _ => rfl,
   fun _ => rfl, fun _ => rfl⟩

/-- C3 (counterexample): the "fails with ArityMismatch iff some op has
arity() > |format.operands|" equivalence is broken by the unimplemented
arity arms: with a zero-operand format and semantic
`[Goto(Const 0), Load(Var 0),...]` the `Load(Var 0)` op has arity 1 > 0,
yet construction fails with `Unimplemented` (the `Goto` arity `todo!` is
hit first), not with `ArityMismatch`. -/
theorem C3_counterexample :
    ¬(Instruction.new "insn" ⟨⟨1⟩, "fmt", ⟨4⟩, []⟩
        ([.Goto (.Const 0), .Load (.Var 0) 0 .Byte]) = .error .ArityMismatch ↔
      ∃ c ∈ ([.Goto (.Const 0), .Load (.Var 0) 0 .Byte] : List AbstractMicroCode),
        ∃ a, c.arity = .ok a ∧
          (⟨⟨1⟩, "fmt", ⟨4⟩, []⟩ : Format).operands.length < a) := by
  intro h
  have hb : ∃ c ∈ ([.Goto (.Const 0), .Load (.Var 0) 0 .Byte] : List AbstractMicroCode),
      ∃ a, c.arity = .ok a ∧ (⟨⟨1⟩, "fmt", ⟨4⟩, []⟩ : Format).operands.length < a :=
    ⟨.Load (.Var 0) 0 .Byte, by simp, 1, rfl, by decide⟩
  exact absurd (h.mpr hb) (by decide)

/-- C3 (amended): provided every op in `semantic` has a defined
(implemented) arity, `Instruction::new` fails with `ArityMismatch` iff
some op's arity strictly exceeds the format's operand count, and
otherwise succeeds; the check happens at construction and no lowering
is involved.  (When an unimplemented-arity `Goto`/`Jump` precedes the
first violating op, construction instead fails with `Unimplemented`.) -/
theorem C3_arity_check (mn : String) (fmt : Format) (sem : List AbstractMicroCode)
    (hdef : ∀ c ∈ sem, c.arity ≠ .error .Unimplemented) :
    (Instruction.new mn fmt sem = .error .ArityMismatch ↔
      ∃ c ∈ sem, ∃ a, c.arity = .ok a ∧ fmt.operands.length < a) ∧
    ((¬∃ c ∈ sem, ∃ a, c.arity = .ok a ∧ fmt.operands.length < a) →
      Instruction.new mn fmt sem = .ok ⟨mn, fmt, sem⟩) := by
  have hs := checkArities_spec fmt sem hdef
  constructor
  · constructor
    · intro h
      unfold Instruction.new at h
      cases hca : checkArities fmt sem with
      | ok u => rw [hca, ok_bind, pure_eq_ok] at h; cases h
      | error e =>
          rw [hca, error_bind] at h
          injection h with he
          rw [he] at hca
          exact hs.1.mp hca
    · intro h
      have := hs.1.mpr h
      unfold Instruction.new
      rw [this, error_bind]
  · intro hno
    have := hs.2 hno
    unfold Instruction.new
    rw [this, ok_bind, pure_eq_ok]

/-- C3 (witness): the amended characterization applied to the claim's
own example — a zero-operand format with semantic `[Load(Var 0),...]`
fails with `ArityMismatch`. -/
theorem C3_arity_check_witness :
    Instruction.new "insn" ⟨⟨1⟩, "fmt", ⟨4⟩, []⟩ [.Load (.Var 0) 0 .Byte]
      = .error .ArityMismatch := by
  have h := (C3_arity_check "insn" ⟨⟨1⟩, "fmt", ⟨4⟩, []⟩ [.Load (.Var 0) 0 .Byte]
    (by decide)).1
  exact h.mpr ⟨.Load (.Var 0) 0 .Byte, by simp, 1, rfl, by decide⟩

/-- C8: `Format::new` fails with `FormatTooWide` exactly when
`width.capacity < opcode.capacity × Π(operands[i].capacity)`, and on
success the format's count equals that product. -/
theorem C8_format_new (width : Bytes) (label : String) (opcode : Bits)
    (operands : List Bits) :
    (Format.new width label opcode operands = .error .FormatTooWide ↔
      width.count < opcode.count * (operands.map Bits.count).prod) ∧
    (∀ f, Format.new width label opcode operands = .ok f →
      f.count = opcode.count * (operands.map Bits.count).prod) := by
  have hc : Format.count ⟨width, label, opcode, operands⟩
      = opcode.count * (operands.map Bits.count).prod := format_count_prod _
  constructor
  · rw [Format.new]
    by_cases h : width.count ≥ Format.count ⟨width, label, opcode, operands⟩
    · rw [if_pos h]
      rw [hc] at h
      constructor
      · intro hk; cases hk
      · intro hk; omega
    · rw [if_neg h]
      rw [hc] at h
      exact ⟨fun _ => by omega, fun _ => rfl⟩
  · intro f hf
    rw [Format.new] at hf
    by_cases h : width.count ≥ Format.count ⟨width, label, opcode, operands⟩
    · rw [if_pos h] at hf
      injection hf with hf
      rw [← hf, hc]
    · rw [if_neg h] at hf
      cases hf

/-- C8 (witness): the claim's example — a 10-bit opcode does not fit in
one byte (1024 > 256) — and a succeeding format whose count is the
product 2^4 * 2^4 = 256. -/
theorem C8_format_new_witness :
    Format.new ⟨1⟩ "fmt" ⟨10⟩ [] = .error .FormatTooWide ∧
    ∀ f, Format.new ⟨1⟩ "fmt" ⟨4⟩ [⟨4⟩] = .ok f → f.count = 256 := by
  constructor
  · exact (C8_format_new ⟨1⟩ "fmt" ⟨10⟩ []).1.mpr (by decide)
  · intro f hf
    have := (C8_format_new ⟨1⟩ "fmt" ⟨4⟩ [⟨4⟩]).2 f hf
    simpa using this

/-- C9: a bit width of n ≥ 1 has capacity exactly 2^n, a byte width of
n ≥ 1 has capacity exactly 256^n (arbitrary-precision `Nat` arithmetic,
exact also beyond 64 bits / 8 bytes; n < 256 is the `u8` domain of the
constructor), and constructing either width from 0 fails with
`InvalidWidth`. -/
theorem C9_capacity :
    (∀ n : Nat, 1 ≤ n → n < 256 →
      Bits.from_u8 n = .ok ⟨n⟩ ∧ Bits.count ⟨n⟩ = 2 ^ n) ∧
    (∀ n : Nat, 1 ≤ n → n < 256 →
      Bytes.from_u8 n = .ok ⟨n⟩ ∧ Bytes.count ⟨n⟩ = 256 ^ n) ∧
    Bits.from_u8 0 = .error .InvalidWidth ∧
    Bytes.from_u8 0 = .error .InvalidWidth := by
  refine ⟨?_, ?_, rfl, rfl⟩
  · intro n h1 _
    exact ⟨by rw [Bits.from_u8, if_pos (by omega)], bits_count_pow n⟩
  · intro n h1 _
    exact ⟨by rw [Bytes.from_u8, if_pos (by omega)], bytes_count_pow n⟩

/-- C9 (witness): capacities at a width beyond 64 bits are computed
exactly (no fixed-width overflow): 2^70 and 256^70. -/
theorem C9_capacity_witness :
    Bits.from_u8 70 = .ok ⟨70⟩ ∧ Bits.count ⟨70⟩ = 2 ^ 70 ∧
    Bytes.from_u8 70 = .ok ⟨70⟩ ∧ Bytes.count ⟨70⟩ = 256 ^ 70 := by
  obtain ⟨hb, hy, _, _⟩ := C9_capacity
  obtain ⟨h1, h2⟩ := hb 70 (by decide) (by decide)
  obtain ⟨h3, h4⟩ := hy 70 (by decide) (by decide)
  exact ⟨h1, h2, h3, h4⟩

/-- C4: for any machine state and `Add(x, y, w)` with both ranges in
bounds, execution reads the little-endian `w`-width values at `x` and
`y`, stores their sum reduced modulo `2^(8·size(w))` back at `x`
(overflow wraps silently), and increments `pc` by exactly 1. -/
theorem C4_add_wraparound (s : MachineState) (x y : Nat) (w : Width)
    (hx : x + w.size ≤ s.data.contents.length)
    (hy : y + w.size ≤ s.data.contents.length) :
    ∃ vx vy d,
      s.data.readV x w = .ok vx ∧
      s.data.readV y w = .ok vy ∧
      s.data.writeV x ((vx + vy) % 2 ^ (8 * w.size)) w = .ok d ∧
      s.execute (.Add x y w) = .ok ⟨s.pc + 1, d⟩ := by
  cases w with
  | Byte =>
      rw [show (2:Nat) ^ (8 * Width.size .Byte) = 256 from by norm_num [Width.size]]
      have hx' : x + 1 ≤ s.data.contents.length := hx
      have hy' : y + 1 ≤ s.data.contents.length := hy
      refine ⟨_, _, _, Memory.read_u8_ok _ _ hx', Memory.read_u8_ok _ _ hy',
        Memory.write_u8_ok _ _ _ hx', ?_⟩
      simp only [MachineState.execute]
      rw [Memory.read_u8_ok _ _ hx', ok_bind, Memory.read_u8_ok _ _ hy', ok_bind,
          Memory.write_u8_ok _ _ _ hx', ok_bind, pure_eq_ok]
  | Word =>
      rw [show (2:Nat) ^ (8 * Width.size .Word) = 65536 from by norm_num [Width.size]]
      have hx' : x + 2 ≤ s.data.contents.length := hx
      have hy' : y + 2 ≤ s.data.contents.length := hy
      refine ⟨_, _, _, Memory.read_u16_ok _ _ hx', Memory.read_u16_ok _ _ hy',
        Memory.write_u16_ok _ _ _ hx', ?_⟩
      simp only [MachineState.execute]
      rw [Memory.read_u16_ok _ _ hx', ok_bind, Memory.read_u16_ok _ _ hy', ok_bind,
          Memory.write_u16_ok _ _ _ hx', ok_bind, pure_eq_ok]
  | DoubleWord =>
      rw [show (2:Nat) ^ (8 * Width.size .DoubleWord) = 4294967296 from by
        norm_num [Width.size]]
      have hx' : x + 4 ≤ s.data.contents.length := hx
      have hy' : y + 4 ≤ s.data.contents.length := hy
      refine ⟨_, _, _, Memory.read_u32_ok _ _ hx', Memory.read_u32_ok _ _ hy',
        Memory.write_u32_ok _ _ _ hx', ?_⟩
      simp only [MachineState.execute]
      rw [Memory.read_u32_ok _ _ hx', ok_bind, Memory.read_u32_ok _ _ hy', ok_bind,
          Memory.write_u32_ok _ _ _ hx', ok_bind, pure_eq_ok]
  | QuadWord =>
      rw [show (2:Nat) ^ (8 * Width.size .QuadWord) = 18446744073709551616 from by
        norm_num [Width.size]]
      have hx' : x + 8 ≤ s.data.contents.length := hx
      have hy' : y + 8 ≤ s.data.contents.length := hy
      refine ⟨_, _, _, Memory.read_u64_ok _ _ hx', Memory.read_u64_ok _ _ hy',
        Memory.write_u64_ok _ _ _ hx', ?_⟩
      simp only [MachineState.execute]
      rw [Memory.read_u64_ok _ _ hx', ok_bind, Memory.read_u64_ok _ _ hy', ok_bind,
          Memory.write_u64_ok _ _ _ hx', ok_bind, pure_eq_ok]

/-- C4 (witness): the claim's example — byte-add on `[255,2]` wraps to
`[1,2]` with `pc` going from 0 to 1. -/
theorem C4_add_wraparound_witness :
    ∃ vx vy d,
      Memory.readV ⟨[255, 2]⟩ 0 .Byte = .ok vx ∧
      Memory.readV ⟨[255, 2]⟩ 1 .Byte = .ok vy ∧
      Memory.writeV ⟨[255, 2]⟩ 0 ((vx + vy) % 2 ^ (8 * Width.size .Byte)) .Byte = .ok d ∧
      (MachineState.mk 0 ⟨[255, 2]⟩).execute (.Add 0 1 .Byte) = .ok ⟨1, d⟩ :=
  C4_add_wraparound ⟨0, ⟨[255, 2]⟩⟩ 0 1 .Byte (by decide) (by decide)

/-- C7: `Jump(i)` adds the signed offset `i` to `pc` and leaves memory
untouched whenever `i ≥ 0` or `|i| ≤ pc`; when `i` is negative with
`|i| > pc` it fails with `PcUnderflow` instead of wrapping. -/
theorem C7_jump :
    (∀ (s : MachineState) (i : Int), 0 ≤ i ∨ -i ≤ (s.pc : Int) →
      s.execute (.Jump i) = .ok ⟨((s.pc : Int) + i).toNat, s.data⟩) ∧
    (∀ (s : MachineState) (i : Int), i < 0 → (s.pc : Int) < -i →
      s.execute (.Jump i) = .error .PcUnderflow) := by
  constructor
  · intro s i h
    simp only [MachineState.execute]
    by_cases hi : i < 0
    · rw [if_pos hi, if_neg (by omega)]
      rw [show s.pc - (-i).toNat = ((s.pc : Int) + i).toNat from by omega]
      rfl
    · rw [if_neg hi]
      rw [show s.pc + i.toNat = ((s.pc : Int) + i).toNat from by omega]
      rfl
  · intro s i hi hpc
    simp only [MachineState.execute]
    rw [if_pos hi, if_pos (by omega)]

/-- C7 (witness): the claim's examples — `Jump(-1)` from `pc=2` lands
at `pc=1` with memory intact, `Jump(-3)` from `pc=1` underflows. -/
theorem C7_jump_witness :
    (MachineState.mk 2 ⟨[1, 2]⟩).execute (.Jump (-1)) = .ok ⟨1, ⟨[1, 2]⟩⟩ ∧
    (MachineState.mk 1 ⟨[1, 2]⟩).execute (.Jump (-3)) = .error .PcUnderflow := by
  constructor
  · have h := C7_jump.1 ⟨2, ⟨[1, 2]⟩⟩ (-1) (Or.inr (by norm_num))
    simpa using h
  · exact C7_jump.2 ⟨1, ⟨[1, 2]⟩⟩ (-3) (by norm_num) (by norm_num)

/-- C5: for each access width, writing an in-range value `v` at an
in-bounds address and reading it back at the same width returns exactly
`v`; the bytes are laid out little-endian — byte `i` of the written
range holds `v / 256^i % 256`, so the least-significant byte sits at
the lowest address. -/
theorem C5_memory_roundtrip (m : Memory) (a v : Nat) (w : Width)
    (hb : a + w.size ≤ m.contents.length) (hv : v < 2 ^ (8 * w.size)) :
    ∃ d, m.writeV a v w = .ok d ∧
      d.readV a w = .ok v ∧
      d.contents.length = m.contents.length ∧
      ∀ i, i < w.size → d.getByte (a + i) = .ok (v / 256 ^ i % 256) := by
  cases w with
  | Byte =>
      have hb' : a + 1 ≤ m.contents.length := hb
      have hv' : v < 256 := hv
      refine ⟨_, Memory.write_u8_ok _ _ v hb', ?_, length_setChain _ _ _, ?_⟩
      · rw [readV_setChain_u8 m a _ hb']
        rw [show v % 256 = v from by omega]
      · intro i hi
        have hi' : i < 1 := hi
        interval_cases i
        · simpa using getByte_setChain_inside m a [v % 256] 0 hb' (by simp)
  | Word =>
      have hb' : a + 2 ≤ m.contents.length := hb
      have hv' : v < 65536 := hv
      refine ⟨_, Memory.write_u16_ok _ _ v hb', ?_, length_setChain _ _ _, ?_⟩
      · rw [readV_setChain_u16 m a _ _ hb']
        rw [show v % 256 + 256 * (v / 256 % 256) = v from by omega]
      · intro i hi
        have hi' : i < 2 := hi
        interval_cases i
        · simpa using getByte_setChain_inside m a [v % 256, v / 256 % 256] 0 hb' (by simp)
        · simpa using getByte_setChain_inside m a [v % 256, v / 256 % 256] 1 hb' (by simp)
  | DoubleWord =>
      have hb' : a + 4 ≤ m.contents.length := hb
      have hv' : v < 4294967296 := hv
      refine ⟨_, Memory.write_u32_ok _ _ v hb', ?_, length_setChain _ _ _, ?_⟩
      · rw [readV_setChain_u32 m a _ _ _ _ hb']
        rw [show v % 256 + 256 * (v / 256 % 256) + 65536 * (v / 65536 % 256) +
            16777216 * (v / 16777216 % 256) = v from by omega]
      · intro i hi
        have hi' : i < 4 := hi
        interval_cases i
        · simpa using getByte_setChain_inside m a
            [v % 256, v / 256 % 256, v / 65536 % 256, v / 16777216 % 256] 0 hb' (by simp)
        · simpa using getByte_setChain_inside m a
            [v % 256, v / 256 % 256, v / 65536 % 256, v / 16777216 % 256] 1 hb' (by simp)
        · simpa using getByte_setChain_inside m a
            [v % 256, v / 256 % 256, v / 65536 % 256, v / 16777216 % 256] 2 hb' (by simp)
        · simpa using getByte_setChain_inside m a
            [v % 256, v / 256 % 256, v / 65536 % 256, v / 16777216 % 256] 3 hb' (by simp)
  | QuadWord =>
      have hb' : a + 8 ≤ m.contents.length := hb
      have hv' : v < 18446744073709551616 := hv
      refine ⟨_, Memory.write_u64_ok _ _ v hb', ?_, length_setChain _ _ _, ?_⟩
      · rw [readV_setChain_u64 m a _ _ _ _ _ _ _ _ hb']
        rw [show v % 256 + 256 * (v / 256 % 256) + 65536 * (v / 65536 % 256) +
            16777216 * (v / 16777216 % 256) + 4294967296 * (v / 4294967296 % 256) +
            1099511627776 * (v / 1099511627776 % 256) +
            281474976710656 * (v / 281474976710656 % 256) +
            72057594037927936 * (v / 72057594037927936 % 256) = v from by omega]
      · intro i hi
        have hi' : i < 8 := hi
        interval_cases i
        · simpa using getByte_setChain_inside m a
            [v % 256, v / 256 % 256, v / 65536 % 256, v / 16777216 % 256,
             v / 4294967296 % 256, v / 1099511627776 % 256, v / 281474976710656 % 256,
             v / 72057594037927936 % 256] 0 hb' (by simp)
        · simpa using getByte_setChain_inside m a
            [v % 256, v / 256 % 256, v / 65536 % 256, v / 16777216 % 256,
             v / 4294967296 % 256, v / 1099511627776 % 256, v / 281474976710656 % 256,
             v / 72057594037927936 % 256] 1 hb' (by simp)
        · simpa using getByte_setChain_inside m a
            [v % 256, v / 256 % 256, v / 65536 % 256, v / 16777216 % 256,
             v / 4294967296 % 256, v / 1099511627776 % 256, v / 281474976710656 % 256,
             v / 72057594037927936 % 256] 2 hb' (by simp)
        · simpa using getByte_setChain_inside m a
            [v % 256, v / 256 % 256, v / 65536 % 256, v / 16777216 % 256,
             v / 4294967296 % 256, v / 1099511627776 % 256, v / 281474976710656 % 256,
             v / 72057594037927936 % 256] 3 hb' (by simp)
        · simpa using getByte_setChain_inside m a
            [v % 256, v / 256 % 256, v / 65536 % 256, v / 16777216 % 256,
             v / 4294967296 % 256, v / 1099511627776 % 256, v / 281474976710656 % 256,
             v / 72057594037927936 % 256] 4 hb' (by simp)
        · simpa using getByte_setChain_inside m a
            [v % 256, v / 256 % 256, v / 65536 % 256, v / 16777216 % 256,
             v / 4294967296 % 256, v / 1099511627776 % 256, v / 281474976710656 % 256,
             v / 72057594037927936 % 256] 5 hb' (by simp)
        · simpa using getByte_setChain_inside m a
            [v % 256, v / 256 % 256, v / 65536 % 256, v / 16777216 % 256,
             v / 4294967296 % 256, v / 1099511627776 % 256, v / 281474976710656 % 256,
             v / 72057594037927936 % 256] 6 hb' (by simp)
        · simpa using getByte_setChain_inside m a
            [v % 256, v / 256 % 256, v / 65536 % 256, v / 16777216 % 256,
             v / 4294967296 % 256, v / 1099511627776 % 256, v / 281474976710656 % 256,
             v / 72057594037927936 % 256] 7 hb' (by simp)

/-- C5 (witness): the spec's example — writing `0x01020304` as a
DoubleWord at address 0 and reading it back, with underlying bytes
`[0x04, 0x03, 0x02, 0x01]` (checked byte-by-byte via the layout
conjunct). -/
theorem C5_memory_roundtrip_witness :
    ∃ d, Memory.writeV ⟨[0, 0, 0, 0]⟩ 0 16909060 .DoubleWord = .ok d ∧
      Memory.readV d 0 .DoubleWord = .ok 16909060 ∧
      d.contents.length = ([0, 0, 0, 0] : List Nat).length ∧
      ∀ i, i < Width.size .DoubleWord →
        d.getByte (0 + i) = .ok (16909060 / 256 ^ i % 256) :=
  C5_memory_roundtrip ⟨[0, 0, 0, 0]⟩ 0 16909060 .DoubleWord (by decide) (by decide)

/-- C6: for `Load(x, imm, w)` with `w` narrower than 64 bits, an
immediate that does not fit in `w` bits makes execution fail with
`ImmediateOverflow` (checked before any memory access, so never a
silent truncation); otherwise — the immediate fits, or `w` is
`QuadWord` and `imm` is any `u64` value — execution writes `imm` at `x`
little-endian at width `w` (the `writeV` whose layout C5 establishes)
and increments `pc` by 1. -/
theorem C6_load_immediate :
    (∀ (s : MachineState) (x imm : Nat) (w : Width), w ≠ .QuadWord →
      2 ^ (8 * w.size) ≤ imm →
      s.execute (.Load x imm w) = .error .ImmediateOverflow) ∧
    (∀ (s : MachineState) (x imm : Nat) (w : Width), imm < 2 ^ (8 * w.size) →
      x + w.size ≤ s.data.contents.length →
      ∃ d, s.data.writeV x imm w = .ok d ∧
        s.execute (.Load x imm w) = .ok ⟨s.pc + 1, d⟩) := by
  constructor
  · intro s x imm w hne hbig
    cases w with
    | Byte =>
        have hbig' : 256 ≤ imm := hbig
        simp only [MachineState.execute]
        rw [if_neg (by omega)]
    | Word =>
        have hbig' : 65536 ≤ imm := hbig
        simp only [MachineState.execute]
        rw [if_neg (by omega)]
    | DoubleWord =>
        have hbig' : 4294967296 ≤ imm := hbig
        simp only [MachineState.execute]
        rw [if_neg (by omega)]
    | QuadWord => exact absurd rfl hne
  · intro s x imm w himm hb
    cases w with
    | Byte =>
        have hb' : x + 1 ≤ s.data.contents.length := hb
        have himm' : imm < 256 := himm
        refine ⟨_, Memory.write_u8_ok _ _ imm hb', ?_⟩
        simp only [MachineState.execute]
        rw [if_pos himm', Memory.write_u8_ok _ _ imm hb', ok_bind, pure_eq_ok]
    | Word =>
        have hb' : x + 2 ≤ s.data.contents.length := hb
        have himm' : imm < 65536 := himm
        refine ⟨_, Memory.write_u16_ok _ _ imm hb', ?_⟩
        simp only [MachineState.execute]
        rw [if_pos himm', Memory.write_u16_ok _ _ imm hb', ok_bind, pure_eq_ok]
    | DoubleWord =>
        have hb' : x + 4 ≤ s.data.contents.length := hb
        have himm' : imm < 4294967296 := himm
        refine ⟨_, Memory.write_u32_ok _ _ imm hb', ?_⟩
        simp only [MachineState.execute]
        rw [if_pos himm', Memory.write_u32_ok _ _ imm hb', ok_bind, pure_eq_ok]
    | QuadWord =>
        have hb' : x + 8 ≤ s.data.contents.length := hb
        refine ⟨_, Memory.write_u64_ok _ _ imm hb', ?_⟩
        simp only [MachineState.execute]
        rw [Memory.write_u64_ok _ _ imm hb', ok_bind, pure_eq_ok]

/-- C6 (witness): `Load(0, 256, Byte)` overflows its width and fails;
the spec's example `Load(0, 257, Word)` fits and executes with
`pc` 0 → 1. -/
theorem C6_load_immediate_witness :
    (MachineState.mk 0 ⟨[0]⟩).execute (.Load 0 256 .Byte) = .error .ImmediateOverflow ∧
    ∃ d, Memory.writeV ⟨[0, 0, 2, 3]⟩ 0 257 .Word = .ok d ∧
      (MachineState.mk 0 ⟨[0, 0, 2, 3]⟩).execute (.Load 0 257 .Word) = .ok ⟨1, d⟩ := by
  constructor
  · exact C6_load_immediate.1 ⟨0, ⟨[0]⟩⟩ 0 256 .Byte (by decide) (by decide)
  · exact C6_load_immediate.2 ⟨0, ⟨[0, 0, 2, 3]⟩⟩ 0 257 .Word (by decide) (by decide)

/-- C10: `Copy(x, y, w)` with both ranges in bounds reads the whole
`w`-width value at `y` from the pre-state before writing any byte at
`x`, so the destination receives the pre-state source value even when
the two ranges overlap; `pc` increases by 1 and every byte outside the
destination range `[x, x+size(w))` is unchanged. -/
theorem C10_copy_prestate (s : MachineState) (x y : Nat) (w : Width)
    (hx : x + w.size ≤ s.data.contents.length)
    (hy : y + w.size ≤ s.data.contents.length) :
    ∃ v d,
      s.data.readV y w = .ok v ∧
      s.data.writeV x v w = .ok d ∧
      s.execute (.Copy x y w) = .ok ⟨s.pc + 1, d⟩ ∧
      d.contents.length = s.data.contents.length ∧
      ∀ j, j < x ∨ x + w.size ≤ j → d.contents[j]? = s.data.contents[j]? := by
  cases w with
  | Byte =>
      have hx' : x + 1 ≤ s.data.contents.length := hx
      have hy' : y + 1 ≤ s.data.contents.length := hy
      refine ⟨_, _, Memory.read_u8_ok _ _ hy', Memory.write_u8_ok _ _ _ hx', ?_,
        length_setChain _ _ _, ?_⟩
      · simp only [MachineState.execute]
        rw [Memory.read_u8_ok _ _ hy', ok_bind, Memory.write_u8_ok _ _ _ hx', ok_bind,
            pure_eq_ok]
      · intro j hj
        have hj' : j < x ∨ x + 1 ≤ j := hj
        exact getElem?_setChain_outside _ _ _ _ (by simpa using hj')
  | Word =>
      have hx' : x + 2 ≤ s.data.contents.length := hx
      have hy' : y + 2 ≤ s.data.contents.length := hy
      refine ⟨_, _, Memory.read_u16_ok _ _ hy', Memory.write_u16_ok _ _ _ hx', ?_,
        length_setChain _ _ _, ?_⟩
      · simp only [MachineState.execute]
        rw [Memory.read_u16_ok _ _ hy', ok_bind, Memory.write_u16_ok _ _ _ hx', ok_bind,
            pure_eq_ok]
      · intro j hj
        have hj' : j < x ∨ x + 2 ≤ j := hj
        exact getElem?_setChain_outside _ _ _ _ (by simpa using hj')
  | DoubleWord =>
      have hx' : x + 4 ≤ s.data.contents.length := hx
      have hy' : y + 4 ≤ s.data.contents.length := hy
      refine ⟨_, _, Memory.read_u32_ok _ _ hy', Memory.write_u32_ok _ _ _ hx', ?_,
        length_setChain _ _ _, ?_⟩
      · simp only [MachineState.execute]
        rw [Memory.read_u32_ok _ _ hy', ok_bind, Memory.write_u32_ok _ _ _ hx', ok_bind,
            pure_eq_ok]
      · intro j hj
        have hj' : j < x ∨ x + 4 ≤ j := hj
        exact getElem?_setChain_outside _ _ _ _ (by simpa using hj')
  | QuadWord =>
      have hx' : x + 8 ≤ s.data.contents.length := hx
      have hy' : y + 8 ≤ s.data.contents.length := hy
      refine ⟨_, _, Memory.read_u64_ok _ _ hy', Memory.write_u64_ok _ _ _ hx', ?_,
        length_setChain _ _ _, ?_⟩
      · simp only [MachineState.execute]
        rw [Memory.read_u64_ok _ _ hy', ok_bind, Memory.write_u64_ok _ _ _ hx', ok_bind,
            pure_eq_ok]
      · intro j hj
        have hj' : j < x ∨ x + 8 ≤ j := hj
        exact getElem?_setChain_outside _ _ _ _ (by simpa using hj')

/-- C10 (witness): the repository's own overlap test — `Copy(0,1,Word)`
on bytes `[1,1,2,3]`, where source `[1,3)` and destination `[0,2)`
overlap at byte 1. -/
theorem C10_copy_prestate_witness :
    ∃ v d,
      Memory.readV ⟨[1, 1, 2, 3]⟩ 1 .Word = .ok v ∧
      Memory.writeV ⟨[1, 1, 2, 3]⟩ 0 v .Word = .ok d ∧
      (MachineState.mk 0 ⟨[1, 1, 2, 3]⟩).execute (.Copy 0 1 .Word) = .ok ⟨1, d⟩ ∧
      d.contents.length = (⟨[1, 1, 2, 3]⟩ : Memory).contents.length ∧
      ∀ j, j < 0 ∨ 0 + Width.size .Word ≤ j →
        d.contents[j]? = (⟨[1, 1, 2, 3]⟩ : Memory).contents[j]? :=
  C10_copy_prestate ⟨0, ⟨[1, 1, 2, 3]⟩⟩ 0 1 .Word (by decide) (by decide)

end Virmin
